import Mathlib

/-!
A verification development for the `WriteExpressions` pass
(`src/ArrayInference/writeExpressions.cpp` of DawnCC).

The pass walks a function's region tree and loop nests, decides where to
place parallelization pragmas, and accumulates them in a line-indexed
comment map.  We shallowly embed the pass: LLVM structures (regions,
loops, blocks, functions) become trees and numeric identifiers, the
external analysis collaborators (PtrRangeAnalysis, ScopeTree,
RegionReconstructor, RecoverCode, LoopInfo, RegionInfo, metadata) become
oracle functions bundled in an `Env`, and the pass's mutable members
(`Comments`, `NewVars`, `routines`, statistics) become an explicit state
record threaded through the traversal.
-/

set_option maxHeartbeats 1000000

namespace WE

/-- Basic blocks are identified by numbers. -/
abbrev Block := Nat

/-- Functions are identified by their (unique) names, modelled as numbers. -/
abbrev FuncId := Nat

/-- A loop nest: `llvm::Loop` with its `getSubLoops()` list.  Attributes
(latch, header, blocks, start line) are looked up in the environment by
the loop's identifier. -/
inductive LoopTree : Type where
  | mk (id : Nat) (subLoops : List LoopTree)
deriving Repr

def LoopTree.id : LoopTree → Nat
  | .mk i _ => i

def LoopTree.subLoops : LoopTree → List LoopTree
  | .mk _ s => s

/-- A region tree node: `llvm::Region` with its child sub-regions
(`R->begin() .. R->end()`).  Attributes are looked up by identifier. -/
inductive RegionTree : Type where
  | mk (id : Nat) (children : List RegionTree)
deriving Repr

def RegionTree.id : RegionTree → Nat
  | .mk i _ => i

def RegionTree.children : RegionTree → List RegionTree
  | .mk _ c => c

/-- A call instruction: its callee and the SSA name of the call's result
(`CI->getName()`), used only by `analyzeCalls`. -/
structure CallInst where
  callee : FuncId
  ssaName : List Char
deriving Repr, DecidableEq

/-- Result of `RecoverCode::analyzeLoop` / `analyzeRegion`: the success
flag (the returned bool), the guard text written into `test`, the
produced per-line fragments `RC.Comments` (a map iterated in key order,
modelled as an ordered association list) and the `RC.restric` flag. -/
structure RCResult where
  ok : Bool
  test : List Char
  comments : List (Nat × List Char)
  restric : Bool
deriving Repr, DecidableEq

/-- The structural and analysis oracles the pass consumes
(`li`, `rp`, `ptrRA`, `st`, `rr`, `rn`, metadata, the module's functions).
All are external collaborators of the pass; the pass only reads them. -/
structure Env where
  /-- `li->getLoopFor(BB)`: innermost loop containing a block, if any. -/
  loopFor : Block → Option LoopTree
  /-- `L->getLoopLatch()`. -/
  loopLatch : Nat → Option Block
  /-- `L->getStartLoc()->getLine()` (also `L->getStartLoc().getLine()`). -/
  loopStartLine : Nat → Int
  /-- `L->getHeader()`. -/
  loopHeader : Nat → Block
  /-- `L->block_begin() .. L->block_end()`. -/
  loopBlocks : Nat → List Block
  /-- terminator of the block carries `"isParallel"` metadata. -/
  blockIsParallel : Block → Bool
  /-- terminator of the block carries `"isDivergent"` metadata. -/
  blockIsDivergent : Block → Bool
  /-- call instructions appearing in the block, in order. -/
  blockCalls : Block → List CallInst
  /-- `rp->getRegionInfo().getRegionFor(BB)`: smallest region of a block. -/
  regionFor : Block → Nat
  /-- `R->block_begin() .. R->block_end()`. -/
  regionBlocks : Nat → List Block
  /-- `R->getEnteringBlock() != nullptr`. -/
  regionEntering : Nat → Bool
  /-- `R->isTopLevelRegion()`. -/
  regionTopLevel : Nat → Bool
  /-- `ptrRA->RegionsRangeData[R].HasFullSideEffectInfo`. -/
  hasFullSEI : Nat → Bool
  /-- `st->isSafetlyRegionLoops(R)` (ScopeTree safety oracle). -/
  stSafetly : Nat → Bool
  /-- `rr->isSafetly(R)` (RegionReconstructor safety oracle). -/
  rrSafetly : Nat → Bool
  /-- `rr->returnReducedRegion(R)`: identifier of the reduced region. -/
  reduced : Nat → Option Nat
  /-- `st->getStartRegionLoops(R).first`. -/
  startRegionLoops : Nat → Int
  /-- `st->getEndRegionLoops(R).first`. -/
  endRegionLoops : Nat → Int
  /-- `RC.analyzeLoop(l, line, ERROR_VALUE, ...)` for a descriptor named
  `name`: success flag, `test` text and `RC.Comments`. -/
  analyzeLoop : Nat → Int → List Char → RCResult
  /-- `RC.analyzeRegion(R, line, ERROR_VALUE, ...)`. -/
  analyzeRegion : Nat → Int → List Char → RCResult
  /-- `F->isDeclaration()`. -/
  fdecl : FuncId → Bool
  /-- `F->isIntrinsic()`. -/
  fintr : FuncId → Bool
  /-- `F->hasAvailableExternallyLinkage()`. -/
  favail : FuncId → Bool
  /-- `F->begin() .. F->end()`: the function's basic blocks. -/
  funcBlocks : FuncId → List Block
  /-- all functions of the module (used to bound call-graph recursion). -/
  allFuncs : List FuncId

/-- Command-line configuration: `ClEmitParallel`, `ClEmitOMP`,
`ClDivergent`, `ClCoalescing`. -/
structure Config where
  emitParallel : Bool
  emitOMP : Char
  divergent : Bool
  coalescing : Bool
deriving Repr, DecidableEq

/-- `#define ACC '0'`. -/
def accChar : Char := '0'

/-- `#define OMP_GPU '1'`. -/
def ompGpuChar : Char := '1'

/-- `#define OMP_CPU '2'`. -/
def ompCpuChar : Char := '2'

/-- `#define ERROR_VALUE -1`. -/
def errorValue : Int := -1

/-- The comment map `std::map<unsigned int, std::string> Comments`,
as an ordered association list with unique keys; annotation text is a
character list. -/
abbrev CM := List (Nat × List Char)

/-- `int` → `unsigned int` conversion applied when a line number is
passed to `addCommentToLine`. -/
def toU32 (i : Int) : Nat := (i % 4294967296).toNat

/-- Lookup of `Comments[line]` when present (`Comments.count(line) != 0`). -/
def cmLookup : CM → Nat → Option (List Char)
  | [], _ => none
  | (k, v) :: r, n => if k = n then some v else cmLookup r n

/-- `Comments[line] = v` (overwrite or create the entry). -/
def cmSet : CM → Nat → List Char → CM
  | [], n, v => [(n, v)]
  | (k, w) :: r, n, v => if k = n then (n, v) :: r else (k, w) :: cmSet r n v

/-- The text accumulated for a line (empty when the line has no entry). -/
def textAt (m : CM) (n : Nat) : List Char := (cmLookup m n).getD []

/-- `WriteExpressions::addCommentToLine` (writeExpressions.cpp:109-115):
create the entry if the line is absent; otherwise append the comment
unless it already occurs as a substring (`find == npos`). -/
def addCommentToLine (m : CM) (comment : List Char) (line : Nat) : CM :=
  match cmLookup m line with
  | none => cmSet m line comment
  | some t => if comment <:+: t then m else cmSet m line (t ++ comment)

/-- `WriteExpressions::copyComments` (117-121): merge a produced comment
map (iterated in key order) into `Comments`. -/
def copyComments (m : CM) (commentsIn : List (Nat × List Char)) : CM :=
  commentsIn.foldl (fun a p => addCommentToLine a p.2 p.1) m

/-- `WriteExpressions::isLoopParallel` (169-182). -/
def isLoopParallel (cfg : Config) (env : Env) (L : LoopTree) : Bool :=
  match env.loopLatch L.id with
  | none => false
  | some bb =>
    if !env.blockIsParallel bb then false
    else if cfg.divergent && env.blockIsDivergent bb then false
    else true

/-- `WriteExpressions::isLoopAnalyzable` (524-536): full side-effect
information for the region of the header and of every loop block. -/
def isLoopAnalyzable (env : Env) (L : LoopTree) : Bool :=
  env.hasFullSEI (env.regionFor (env.loopHeader L.id)) &&
    (env.loopBlocks L.id).all (fun b => env.hasFullSEI (env.regionFor b))

/-- Inner loop of `isSafeMemoryCoalescing` over the region's blocks,
carrying the (otherwise unread) `loops` visited map of the source. -/
def safeCoalBlocks (cfg : Config) (env : Env) : List Block → List Nat → Bool
  | [], _ => true
  | b :: bs, loops =>
    match env.loopFor b with
    | none => safeCoalBlocks cfg env bs loops
    | some l =>
      let loops' := if loops.contains l.id then loops
                    else loops ++ l.subLoops.map LoopTree.id
      if !isLoopParallel cfg env l then false
      else safeCoalBlocks cfg env bs loops'

/-- `WriteExpressions::isSafeMemoryCoalescing` (317-336). -/
def isSafeMemoryCoalescing (cfg : Config) (env : Env) (rid : Nat) : Bool :=
  if !env.regionEntering rid && !env.regionTopLevel rid then false
  else if !cfg.emitParallel then true
  else safeCoalBlocks cfg env (env.regionBlocks rid) []

mutual
/-- `WriteExpressions::marknumAL` (192-196), acting on the `numAL`
statistic. -/
def marknumALn : LoopTree → Nat → Nat
  | .mk _ subs, n => marknumALListn subs (n + 1)
/-- companion of `marknumALn` over the sub-loop list. -/
def marknumALListn : List LoopTree → Nat → Nat
  | [], n => n
  | L :: ls, n => marknumALListn ls (marknumALn L n)
end

mutual
/-- `WriteExpressions::marknumWL` (249-253), acting on the `numWL`
statistic. -/
def marknumWLn : LoopTree → Nat → Nat
  | .mk _ subs, n => marknumWLListn subs (n + 1)
/-- companion of `marknumWLn` over the sub-loop list. -/
def marknumWLListn : List LoopTree → Nat → Nat
  | [], n => n
  | L :: ls, n => marknumWLListn ls (marknumWLn L n)
end

/-- The pragma string built by `denotateLoopParallel` (148-150). -/
def dlpPragma (cfg : Config) (cond : List Char) : List Char :=
  if cfg.emitOMP == ompGpuChar || cfg.emitOMP == ompCpuChar then
    "#pragma omp parallel for ".data ++ cond ++ "\n".data
  else
    "#pragma acc loop independent ".data ++ cond ++ "\n".data

mutual
/-- `WriteExpressions::denotateLoopParallel` (147-167), acting on the
pair (`Comments`, `numWL`). -/
def denotateLoopParallel (cfg : Config) (env : Env) (cond : List Char) :
    LoopTree → CM × Nat → CM × Nat
  | .mk lid subs, p =>
    let pragma := dlpPragma cfg cond
    match env.loopLatch lid with
    | none => p
    | some bb =>
      if cfg.divergent && env.blockIsDivergent bb then p
      else if !env.blockIsParallel bb then p
      else
        let line := env.loopStartLine lid
        let p1 := (addCommentToLine p.1 pragma (toU32 line), p.2 + 1)
        denotateLoopParallelList cfg env cond subs p1
/-- the `for (Loop *SubLoop : L->getSubLoops())` recursion of
`denotateLoopParallel`. -/
def denotateLoopParallelList (cfg : Config) (env : Env) (cond : List Char) :
    List LoopTree → CM × Nat → CM × Nat
  | [], p => p
  | L :: ls, p =>
    denotateLoopParallelList cfg env cond ls (denotateLoopParallel cfg env cond L p)
end

/-- The mutable members of the `WriteExpressions` pass object threaded
through a run, plus the four `STATISTIC` counters.  The two final fields
are observational ghost logs that record, respectively, every sequence
number handed to a computation descriptor (at each `NewVars++` that
names a descriptor) and every region identifier whose descriptor
fragments were merged into `Comments` by `writeComputation`. -/
structure St where
  comments : CM
  newVars : Nat
  routines : List FuncId
  expression : List (List Char)
  isknowedLoop : List Nat
  numL : Nat
  numAL : Nat
  numWL : Nat
  numFLC : Nat
  seqUsed : List Nat
  annotatedRegions : List Nat
deriving Repr

/-- Whether `findACCroutines` returns immediately on `F`
(writeExpressions.cpp:506-509): declaration, intrinsic,
available-externally linkage, or a non-accelerator emission target. -/
def accIneligible (cfg : Config) (env : Env) (F : FuncId) : Bool :=
  env.fdecl F || env.fintr F || env.favail F || (cfg.emitOMP != accChar)

/-- The call instructions of a function's body, in block order. -/
def funcCalls (env : Env) (F : FuncId) : List FuncId :=
  ((env.funcBlocks F).flatMap env.blockCalls).map CallInst.callee

mutual
/-- `WriteExpressions::findACCroutines` (505-522), acting on the
`routines` registry.  The C++ recursion is bounded by the registry
check on callees; the embedding makes the recursion total with a fuel
argument, and `findACCroutines_stable` below proves the result does
not depend on the fuel once it exceeds the number of module functions
(the termination argument of the source). -/
def findACCroutinesF (cfg : Config) (env : Env) :
    Nat → FuncId → List FuncId → List FuncId
  | 0, _, rs => rs
  | fuel + 1, F, rs =>
    if accIneligible cfg env F then rs
    else
      let rs1 := if rs.contains F then rs else rs ++ [F]
      findACCcallsF cfg env fuel (funcCalls env F) rs1
  termination_by fuel _ _ => (fuel, 0)
/-- the loop of `findACCroutines` over the call instructions of the
function's body: recurse into each callee not yet registered. -/
def findACCcallsF (cfg : Config) (env : Env) :
    Nat → List FuncId → List FuncId → List FuncId
  | _, [], rs => rs
  | fuel, c :: cs, rs =>
    findACCcallsF cfg env fuel cs
      (if rs.contains c then rs else findACCroutinesF cfg env fuel c rs)
  termination_by fuel cs _ => (fuel, cs.length + 1)
end

/-- `findACCroutines` with enough fuel for any start registry. -/
def findACCroutines (cfg : Config) (env : Env) (F : FuncId) (rs : List FuncId) :
    List FuncId :=
  findACCroutinesF cfg env (env.allFuncs.length + 2) F rs

/-- The scan over the call instructions inside a list of blocks
performed after a successful descriptor analysis
(writeExpressions.cpp:294-303 and 415-424): run `findACCroutines` on
every callee not yet registered. -/
def scanCalls (cfg : Config) (env : Env) (blocks : List Block)
    (rs : List FuncId) : List FuncId :=
  (blocks.flatMap env.blockCalls).foldl
    (fun a ci => if a.contains ci.callee then a
                 else findACCroutines cfg env ci.callee a) rs

mutual
/-- All identifiers of a loop and its nested sub-loops, as marked
visited by the breadth-first queue in `annotateAccKernels` (387-395). -/
def allLoopIds : LoopTree → List Nat
  | .mk i subs => i :: allLoopIdsList subs
/-- companion of `allLoopIds` over a sub-loop list. -/
def allLoopIdsList : List LoopTree → List Nat
  | [] => []
  | L :: ls => allLoopIds L ++ allLoopIdsList ls
end

/-- The name `"AI" + std::to_string(NewVars)` of a computation
descriptor. -/
def aiName (n : Nat) : List Char := "AI".data ++ (Nat.repr n).data

/-- `WriteExpressions::writeKernels` (338-369), acting on the pair
(`Comments`, `numWL`). -/
def writeKernels (cfg : Config) (env : Env) (L : LoopTree)
    (name : List Char) (restric : Bool) (p : CM × Nat) : CM × Nat :=
  let flag := if restric then " if(!RST_".data ++ name ++ ")".data else []
  let line := env.loopStartLine L.id
  let pragma := "#pragma acc kernels".data ++ flag ++ "\n".data
  if !cfg.emitParallel && cfg.emitOMP == accChar then
    (addCommentToLine p.1 pragma (toU32 line), p.2)
  else
    match env.loopLatch L.id with
    | none => p
    | some bb =>
      if !env.blockIsParallel bb then p
      else
        let p1 := (p.1, p.2 + 1)
        let p2 := if cfg.emitOMP == accChar then
                    (addCommentToLine p1.1 pragma (toU32 line), p1.2)
                  else p1
        if cfg.emitParallel then
          let p3 := denotateLoopParallel cfg env [] L p2
          (p3.1, marknumWLn L p3.2)
        else p2

/-- The fold of `annotateAccKernels` over the region's blocks, carrying
the `loops` visited map. -/
def akBlocks (cfg : Config) (env : Env) (rid : Nat) (name : List Char)
    (restric : Bool) : List Block → (CM × Nat) × List Nat → (CM × Nat) × List Nat
  | [], acc => acc
  | b :: bs, acc =>
    match env.loopFor b with
    | none => akBlocks cfg env rid name restric bs acc
    | some l =>
      if !(env.regionBlocks rid).contains (env.loopHeader l.id) then
        akBlocks cfg env rid name restric bs acc
      else
        let acc1 := if acc.2.contains l.id then acc
                    else (writeKernels cfg env l name restric acc.1, acc.2 ++ [l.id])
        akBlocks cfg env rid name restric bs (acc1.1, acc1.2 ++ allLoopIds l)

/-- `WriteExpressions::annotateAccKernels` (371-397), acting on the pair
(`Comments`, `numWL`).  (The C++ return value is never produced on the
fall-through path and is ignored by the only caller.) -/
def annotateAccKernels (cfg : Config) (env : Env) (rid : Nat)
    (name : List Char) (restric : Bool) (p : CM × Nat) : CM × Nat :=
  if !isSafeMemoryCoalescing cfg env rid then p
  else (akBlocks cfg env rid name restric (env.regionBlocks rid) (p, [])).1

/-- `WriteExpressions::writeComputation` (399-432). -/
def writeComputation (cfg : Config) (env : Env) (line lineEnd : Int)
    (rid : Nat) (s : St) : St :=
  let s1 := { s with newVars := s.newVars + 1,
                     seqUsed := s.seqUsed ++ [s.newVars + 1] }
  let name := aiName s1.newVars
  let rc := env.analyzeRegion rid line name
  if rc.ok then
    let s2 := { s1 with routines := scanCalls cfg env (env.regionBlocks rid) s1.routines }
    let s3 := { s2 with comments := copyComments s2.comments rc.comments,
                        expression := [],
                        annotatedRegions := s2.annotatedRegions ++ [rid] }
    let p := annotateAccKernels cfg env rid name rc.restric (s3.comments, s3.numWL)
    let s4 := { s3 with comments := p.1, numWL := p.2 }
    { s4 with comments := addCommentToLine s4.comments "\x7d\n".data (toU32 lineEnd) }
  else s1

mutual
/-- `WriteExpressions::regionIdentify` (255-316). -/
def regionIdentify (cfg : Config) (env : Env) : RegionTree → St → St
  | .mk rid children, s =>
    let lopt := match (env.regionBlocks rid).head? with
                | none => none
                | some b => env.loopFor b
    match lopt with
    | none => regionIdentifyList cfg env children s
    | some l =>
      if !isLoopParallel cfg env l && cfg.emitParallel then
        regionIdentifyList cfg env children s
      else if !isLoopAnalyzable env l || !env.stSafetly rid then
        regionIdentifyList cfg env children s
      else
        let s1 := { s with numAL := marknumALn l s.numAL }
        let line := env.loopStartLine l.id
        if line == errorValue then s1
        else
          let s2 := { s1 with newVars := s1.newVars + 1,
                              seqUsed := s1.seqUsed ++ [s1.newVars + 1] }
          let name := aiName s2.newVars
          let rc := env.analyzeLoop l.id line name
          if rc.ok then
            let s3 := { s2 with routines := scanCalls cfg env (env.loopBlocks l.id) s2.routines }
            let s4 := { s3 with comments := copyComments s3.comments rc.comments,
                                expression := [] }
            if cfg.emitParallel then
              let p := denotateLoopParallel cfg env rc.test l (s4.comments, s4.numWL)
              { s4 with comments := p.1, numWL := p.2 }
            else
              { s4 with numWL := marknumWLn l s4.numWL }
          else s2
/-- the `for (auto SR = R->begin() ...)` recursion of `regionIdentify`. -/
def regionIdentifyList (cfg : Config) (env : Env) : List RegionTree → St → St
  | [], s => s
  | r :: rs, s => regionIdentifyList cfg env rs (regionIdentify cfg env r s)
end

mutual
/-- `WriteExpressions::regionIdentifyCoalescing` (434-469).
(`ptrRA->analyzeReducedRegion(R)` is an oracle-internal computation with
no observable effect in this model.) -/
def regionIdentifyCoalescing (cfg : Config) (env : Env) : RegionTree → St → St
  | .mk rid children, s =>
    let line := env.startRegionLoops rid
    let lineEnd := env.endRegionLoops rid + 1
    if !isSafeMemoryCoalescing cfg env rid || !env.stSafetly rid then
      regionIdentifyCoalescingList cfg env children s
    else
      let regionInvalid := !env.hasFullSEI rid || !env.rrSafetly rid
      if regionInvalid then
        match env.reduced rid with
        | some rr =>
          if env.rrSafetly rr && env.hasFullSEI rr then
            writeComputation cfg env line lineEnd rr s
          else regionIdentifyCoalescingList cfg env children s
        | none => regionIdentifyCoalescingList cfg env children s
      else
        writeComputation cfg env line lineEnd rid s
/-- the child-region recursion of `regionIdentifyCoalescing`. -/
def regionIdentifyCoalescingList (cfg : Config) (env : Env) :
    List RegionTree → St → St
  | [], s => s
  | r :: rs, s =>
    regionIdentifyCoalescingList cfg env rs (regionIdentifyCoalescing cfg env r s)
end

/-- A function of the module as seen by `runOnFunction`: its basic
blocks and the top-level region found by the parent walk in
`functionIdentify` (486-491). -/
structure Func where
  fblocks : List Block
  ftop : RegionTree

/-- The loop-counting fold at the start of `functionIdentify` (473-483):
`numL` is incremented once per distinct innermost loop of the
function's blocks. -/
def countLoops (env : Env) : List Block → Nat → List Nat → Nat
  | [], n, _ => n
  | b :: bs, n, seen =>
    match env.loopFor b with
    | none => countLoops env bs n seen
    | some l =>
      if seen.contains l.id then countLoops env bs n seen
      else countLoops env bs (n + 1) (seen ++ [l.id])

/-- `WriteExpressions::functionIdentify` (472-498). -/
def functionIdentify (cfg : Config) (env : Env) (F : Func) (s : St) : St :=
  let s1 := { s with numL := countLoops env F.fblocks s.numL [] }
  if cfg.coalescing then regionIdentifyCoalescing cfg env F.ftop s1
  else regionIdentify cfg env F.ftop s1

/-- `WriteExpressions::runOnFunction` (538-559): reset `NewVars`,
`Comments` and `isknowedLoop`, then delegate to `functionIdentify`. -/
def runOnFunction (cfg : Config) (env : Env) (F : Func) (s : St) : St :=
  functionIdentify cfg env F
    { s with newVars := 0, comments := [], isknowedLoop := [] }

/-- A whole run: the pass manager applies `runOnFunction` to every
function of the module in sequence; statistics, `routines` and the
ghost logs persist across functions. -/
def processModule (cfg : Config) (env : Env) (Fs : List Func) (s : St) : St :=
  Fs.foldl (fun a F => runOnFunction cfg env F a) s

/-- The state at process start: all counters zero, all containers
empty. -/
def initSt : St :=
  { comments := [], newVars := 0, routines := [], expression := [],
    isknowedLoop := [], numL := 0, numAL := 0, numWL := 0, numFLC := 0,
    seqUsed := [], annotatedRegions := [] }

/-- `WriteExpressions::analyzeCalls` (81-89), acting on the `numFLC`
statistic: count the call instructions with a non-empty result name
inside an analyzable loop.  This is the only operation that increments
`numFLC`, and no function of the pass invokes it. -/
def analyzeCalls (env : Env) (L : LoopTree) (numFLC : Nat) : Nat :=
  if !isLoopAnalyzable env L then numFLC
  else numFLC +
    ((env.loopBlocks L.id).flatMap env.blockCalls).countP
      (fun ci => !ci.ssaName.isEmpty)

/-! ## Lemmas about the comment map -/

theorem cmLookup_cmSet_self (m : CM) (n : Nat) (v : List Char) :
    cmLookup (cmSet m n v) n = some v := by
  induction m with
  | nil => simp [cmSet, cmLookup]
  | cons p r ih =>
    obtain ⟨k, w⟩ := p
    by_cases h : k = n <;> simp [cmSet, cmLookup, h, ih]

theorem cmLookup_cmSet_ne (m : CM) (n k : Nat) (v : List Char) (h : k ≠ n) :
    cmLookup (cmSet m n v) k = cmLookup m k := by
  induction m with
  | nil => simp [cmSet, cmLookup, Ne.symm h]
  | cons p r ih =>
    obtain ⟨k', w⟩ := p
    by_cases h' : k' = n
    · subst h'
      simp [cmSet, cmLookup, Ne.symm h]
    · simp [cmSet, cmLookup, h', ih]

theorem textAt_cmSet_self (m : CM) (n : Nat) (v : List Char) :
    textAt (cmSet m n v) n = v := by
  simp [textAt, cmLookup_cmSet_self]

theorem textAt_cmSet_ne (m : CM) (n k : Nat) (v : List Char) (h : k ≠ n) :
    textAt (cmSet m n v) k = textAt m k := by
  simp [textAt, cmLookup_cmSet_ne m n k v h]

/-- After inserting a fragment for a line, the fragment occurs in that
line's text (either it was already a substring or it was appended). -/
theorem infix_textAt_addCommentToLine (m : CM) (c : List Char) (n : Nat) :
    c <:+: textAt (addCommentToLine m c n) n := by
  unfold addCommentToLine
  cases h : cmLookup m n with
  | none => rw [textAt_cmSet_self]
  | some t =>
    by_cases hin : c <:+: t
    · simp [hin, textAt, h]
    · simp only [hin, if_false, textAt_cmSet_self]
      exact (List.suffix_append t c).isInfix

/-- An insertion only ever appends to a line's text. -/
theorem textAt_addCommentToLine_grow (m : CM) (c : List Char) (n k : Nat) :
    ∃ t, textAt (addCommentToLine m c n) k = textAt m k ++ t := by
  by_cases hk : k = n
  · subst hk
    unfold addCommentToLine
    cases h : cmLookup m k with
    | none => exact ⟨c, by simp [textAt, h, cmLookup_cmSet_self]⟩
    | some t =>
      by_cases hin : c <:+: t
      · exact ⟨[], by simp [hin]⟩
      · exact ⟨c, by simp [hin, textAt, h, cmLookup_cmSet_self]⟩
  · refine ⟨[], ?_⟩
    unfold addCommentToLine
    cases h : cmLookup m n with
    | none => simp [textAt_cmSet_ne _ _ _ _ hk]
    | some t =>
      by_cases hin : c <:+: t <;> simp [hin, textAt_cmSet_ne _ _ _ _ hk]

/-- A sequence of insertions only ever appends to a line's text. -/
theorem textAt_copyComments_grow (ops : List (Nat × List Char)) (m : CM) (k : Nat) :
    ∃ t, textAt (copyComments m ops) k = textAt m k ++ t := by
  induction ops generalizing m with
  | nil => exact ⟨[], by simp [copyComments]⟩
  | cons p r ih =>
    obtain ⟨t1, h1⟩ := textAt_addCommentToLine_grow m p.2 p.1 k
    obtain ⟨t2, h2⟩ := ih (addCommentToLine m p.2 p.1)
    exact ⟨t1 ++ t2, by simp [copyComments] at h2 ⊢; rw [h2, h1, List.append_assoc]⟩

/-- When the fragment is not yet a substring of the line's text, the
insertion appends it. -/
theorem textAt_addCommentToLine_of_not_infix (m : CM) (c : List Char) (n : Nat)
    (h : ¬ c <:+: textAt m n) :
    textAt (addCommentToLine m c n) n = textAt m n ++ c := by
  unfold addCommentToLine
  cases hl : cmLookup m n with
  | none => simp [textAt, hl, cmLookup_cmSet_self]
  | some t =>
    have ht : textAt m n = t := by simp [textAt, hl]
    rw [ht] at h
    simp [h, textAt, hl, cmLookup_cmSet_self]

/-!
## C4: idempotence of comment insertion

Claim C4: inserting an annotation fragment into the comment map for a
line is idempotent under the substring rule.
-/

/-- C4: for every line and fragment, if the fragment already occurs as a
substring of the line's accumulated text the insertion leaves the map's
text unchanged (all lines included), otherwise the fragment is appended
to that line's text and other lines are untouched; and inserting the
same fragment twice for the same line yields the same map as inserting
it once. -/
theorem addCommentToLine_idempotent (m : CM) (c : List Char) (line : Nat) :
    (textAt (addCommentToLine m c line) line =
      if c <:+: textAt m line then textAt m line else textAt m line ++ c)
    ∧ (∀ k, k ≠ line → textAt (addCommentToLine m c line) k = textAt m k)
    ∧ addCommentToLine (addCommentToLine m c line) c line = addCommentToLine m c line := by
  refine ⟨?_, ?_, ?_⟩
  · by_cases h : c <:+: textAt m line
    · simp only [h, if_true]
      unfold addCommentToLine
      cases hl : cmLookup m line with
      | none =>
        have ht : textAt m line = [] := by simp [textAt, hl]
        rw [ht] at h
        rw [List.infix_nil] at h
        simp [textAt_cmSet_self, ht, h]
      | some t =>
        have ht : textAt m line = t := by simp [textAt, hl]
        rw [ht] at h
        simp [h, ht, textAt, hl]
    · simp only [h, if_false]
      exact textAt_addCommentToLine_of_not_infix m c line h
  · intro k hk
    unfold addCommentToLine
    cases hl : cmLookup m line with
    | none => simp [textAt_cmSet_ne _ _ _ _ hk]
    | some t =>
      by_cases hin : c <:+: t <;> simp [hin, textAt_cmSet_ne _ _ _ _ hk]
  · unfold addCommentToLine
    cases hl : cmLookup m line with
    | none =>
      simp [cmLookup_cmSet_self, List.infix_rfl]
    | some t =>
      by_cases hin : c <:+: t
      · simp [hin, hl]
      · simp only [hin, if_false, cmLookup_cmSet_self]
        have : c <:+: t ++ c := (List.suffix_append t c).isInfix
        simp [this]

/-- Witness for C4 at a concrete input. -/
theorem addCommentToLine_idempotent_witness :
    textAt (addCommentToLine [(3, "ab".data)] "cd".data 3) 7 =
      textAt [(3, ("ab".data : List Char))] 7 :=
  (addCommentToLine_idempotent [(3, "ab".data)] "cd".data 3).2.1 7 (by decide)

/-!
## C9: merge order of distinct fragments

Claim C9: for a line receiving multiple distinct fragments, the
accumulated text preserves first-insertion order.
-/

/-- C9: if fragment `A` is inserted for line `n`, then any sequence of
further insertions (`ops`) is merged, and finally fragment `B` is
inserted for line `n` while not yet a substring of the line's text
(i.e. `B` is not dropped by the substring rule), then `A` occurs before
`B` in the line's final text. -/
theorem comment_map_preserves_insertion_order
    (m : CM) (A B : List Char) (n : Nat) (ops : List (Nat × List Char))
    (h : ¬ B <:+: textAt (copyComments (addCommentToLine m A n) ops) n) :
    ∃ x y z, textAt (addCommentToLine (copyComments (addCommentToLine m A n) ops) B n) n
      = x ++ A ++ y ++ B ++ z := by
  obtain ⟨x, y1, hx⟩ := infix_textAt_addCommentToLine m A n
  obtain ⟨g, hg⟩ := textAt_copyComments_grow ops (addCommentToLine m A n) n
  have happ := textAt_addCommentToLine_of_not_infix _ B n h
  refine ⟨x, y1 ++ g, [], ?_⟩
  rw [happ, hg, ← hx]
  simp

/-- Witness for C9 at a concrete input. -/
theorem comment_map_preserves_insertion_order_witness :
    ∃ x y z, textAt (addCommentToLine
        (copyComments (addCommentToLine [] "aa".data 2) [(2, "bb".data)])
        "cc".data 2) 2
      = x ++ "aa".data ++ y ++ "cc".data ++ z :=
  comment_map_preserves_insertion_order [] "aa".data "cc".data 2
    [(2, "bb".data)] (by decide)

/-!
## C7: characterization of `isLoopParallel`
-/

/-- C7: `isLoopParallel` returns true iff the loop has a latch block
whose terminator carries the `"isParallel"` marker and it is not the
case that the discard-divergent flag is set while an `"isDivergent"`
marker is also present; in particular a loop with no latch yields
false. -/
theorem isLoopParallel_iff (cfg : Config) (env : Env) (L : LoopTree) :
    isLoopParallel cfg env L = true ↔
    ∃ bb, env.loopLatch L.id = some bb ∧ env.blockIsParallel bb = true ∧
      ¬(cfg.divergent = true ∧ env.blockIsDivergent bb = true) := by
  unfold isLoopParallel
  cases h : env.loopLatch L.id with
  | none => simp
  | some bb =>
    by_cases hp : env.blockIsParallel bb
    · by_cases hd : cfg.divergent
      · by_cases hdd : env.blockIsDivergent bb
        · simp [hp, hd, hdd]
        · simp only [Bool.not_eq_true] at hdd
          simp [hp, hd, hdd]
      · simp only [Bool.not_eq_true] at hd
        simp [hp, hd]
    · simp only [Bool.not_eq_true] at hp
      simp [hp]

/-!
## C6: characterization of `isSafeMemoryCoalescing`
-/

/-- The check performed per region block: the innermost loop containing
the block, when there is one, is proven parallel. -/
def blockLoopParallel (cfg : Config) (env : Env) (b : Block) : Bool :=
  match env.loopFor b with
  | none => true
  | some l => isLoopParallel cfg env l

theorem safeCoalBlocks_eq_all (cfg : Config) (env : Env) (bs : List Block) :
    ∀ loops, safeCoalBlocks cfg env bs loops = bs.all (blockLoopParallel cfg env) := by
  induction bs with
  | nil => intro loops; simp [safeCoalBlocks]
  | cons b r ih =>
    intro loops
    unfold safeCoalBlocks
    cases h : env.loopFor b with
    | none => simp [List.all_cons, blockLoopParallel, h, ih]
    | some l =>
      by_cases hp : isLoopParallel cfg env l
      · simp [List.all_cons, blockLoopParallel, h, hp, ih]
      · simp only [Bool.not_eq_true] at hp
        simp [List.all_cons, blockLoopParallel, h, hp]

/-- C6: `isSafeMemoryCoalescing` returns false when the region has
neither an entering block nor is the top-level region; otherwise, when
parallel-marker emission is not requested it returns true
unconditionally; otherwise it returns true exactly when, for every
block of the region, the innermost loop containing that block (when
one exists) satisfies `isLoopParallel`. -/
theorem isSafeMemoryCoalescing_characterization (cfg : Config) (env : Env) (rid : Nat) :
    isSafeMemoryCoalescing cfg env rid =
      ((env.regionEntering rid || env.regionTopLevel rid) &&
        (!cfg.emitParallel || (env.regionBlocks rid).all (blockLoopParallel cfg env))) := by
  unfold isSafeMemoryCoalescing
  by_cases he : env.regionEntering rid
  · by_cases hp : cfg.emitParallel
    · simp [he, hp, safeCoalBlocks_eq_all]
    · simp only [Bool.not_eq_true] at hp
      simp [he, hp]
  · simp only [Bool.not_eq_true] at he
    by_cases ht : env.regionTopLevel rid
    · by_cases hp : cfg.emitParallel
      · simp [he, ht, hp, safeCoalBlocks_eq_all]
      · simp only [Bool.not_eq_true] at hp
        simp [he, ht, hp]
    · simp only [Bool.not_eq_true] at ht
      simp [he, ht]

/-!
## C3: the parallel-marker policy and sub-loops
-/

theorem infix_of_append_right {A x : List Char} (t : List Char)
    (h : A <:+: x) : A <:+: x ++ t :=
  h.trans (List.prefix_append x t).isInfix

mutual
/-- `denotateLoopParallel` only ever appends to any line's text. -/
theorem denotate_grows (cfg : Config) (env : Env) (cond : List Char) :
    ∀ (L : LoopTree) (p : CM × Nat) (k : Nat),
      ∃ t, textAt (denotateLoopParallel cfg env cond L p).1 k = textAt p.1 k ++ t
  | .mk lid subs, p, k => by
    unfold denotateLoopParallel
    cases h : env.loopLatch lid with
    | none => exact ⟨[], by simp⟩
    | some bb =>
      by_cases hd : cfg.divergent && env.blockIsDivergent bb
      · exact ⟨[], by simp [hd]⟩
      · by_cases hp2 : env.blockIsParallel bb
        · obtain ⟨t1, h1⟩ := textAt_addCommentToLine_grow p.1 (dlpPragma cfg cond)
            (toU32 (env.loopStartLine lid)) k
          obtain ⟨t2, h2⟩ := denotateList_grows cfg env cond subs
            (addCommentToLine p.1 (dlpPragma cfg cond) (toU32 (env.loopStartLine lid)),
              p.2 + 1) k
          refine ⟨t1 ++ t2, ?_⟩
          simp only [hd, if_false, hp2, Bool.not_true, Bool.false_eq_true]
          rw [h2, h1, List.append_assoc]
        · simp only [Bool.not_eq_true] at hp2
          exact ⟨[], by simp [hd, hp2]⟩
/-- the sub-loop fold of `denotateLoopParallel` only ever appends. -/
theorem denotateList_grows (cfg : Config) (env : Env) (cond : List Char) :
    ∀ (ls : List LoopTree) (p : CM × Nat) (k : Nat),
      ∃ t, textAt (denotateLoopParallelList cfg env cond ls p).1 k = textAt p.1 k ++ t
  | [], p, k => ⟨[], by simp [denotateLoopParallelList]⟩
  | L :: ls, p, k => by
    obtain ⟨t1, h1⟩ := denotate_grows cfg env cond L p k
    obtain ⟨t2, h2⟩ := denotateList_grows cfg env cond ls
      (denotateLoopParallel cfg env cond L p) k
    exact ⟨t1 ++ t2, by
      simp only [denotateLoopParallelList]
      rw [h2, h1, List.append_assoc]⟩
end

/-- When the guard of `denotateLoopParallel` passes (the same checks as
`isLoopParallel`), the loop's pragma ends up in the text of the loop's
start line. -/
theorem denotate_annotates_self (cfg : Config) (env : Env) (cond : List Char)
    (L : LoopTree) (p : CM × Nat) (hL : isLoopParallel cfg env L = true) :
    dlpPragma cfg cond <:+:
      textAt (denotateLoopParallel cfg env cond L p).1 (toU32 (env.loopStartLine L.id)) := by
  obtain ⟨lid, subs⟩ := L
  obtain ⟨bb, hbb, hp, hnd⟩ := (isLoopParallel_iff cfg env (.mk lid subs)).1 hL
  simp only [LoopTree.id] at hbb hp ⊢
  have hd : ¬(cfg.divergent && env.blockIsDivergent bb) = true := by
    simp only [Bool.and_eq_true]
    exact hnd
  unfold denotateLoopParallel
  rw [hbb]
  simp only [hd, if_false, hp, Bool.not_true, Bool.false_eq_true]
  obtain ⟨t, ht⟩ := denotateList_grows cfg env cond subs
    (addCommentToLine p.1 (dlpPragma cfg cond) (toU32 (env.loopStartLine lid)), p.2 + 1)
    (toU32 (env.loopStartLine lid))
  rw [ht]
  exact infix_of_append_right t (infix_textAt_addCommentToLine _ _ _)

/-- A sub-loop run inside the fold is annotated when its own guard
passes, and the annotation survives the rest of the fold. -/
theorem denotateList_annotates_member (cfg : Config) (env : Env) (cond : List Char)
    (ls : List LoopTree) (SL : LoopTree) (p : CM × Nat)
    (hmem : SL ∈ ls) (hSL : isLoopParallel cfg env SL = true) :
    dlpPragma cfg cond <:+:
      textAt (denotateLoopParallelList cfg env cond ls p).1
        (toU32 (env.loopStartLine SL.id)) := by
  induction ls generalizing p with
  | nil => cases hmem
  | cons a rest ih =>
    rcases List.mem_cons.1 hmem with hEq | hrest
    · subst hEq
      have h1 := denotate_annotates_self cfg env cond SL p hSL
      obtain ⟨t, ht⟩ := denotateList_grows cfg env cond rest
        (denotateLoopParallel cfg env cond SL p) (toU32 (env.loopStartLine SL.id))
      simp only [denotateLoopParallelList]
      rw [ht]
      exact infix_of_append_right t h1
    · simp only [denotateLoopParallelList]
      exact ih _ hrest

/-- C3 (amended): once a loop's guard passes, the parallel-marker policy
recurses into every sub-loop with the same guard condition, but each
sub-loop is re-validated by the same latch/marker/divergence checks; a
sub-loop whose own checks pass receives the directive at its start
line. -/
theorem denotate_subloop_marked_annotated (cfg : Config) (env : Env)
    (cond : List Char) (L SL : LoopTree) (p : CM × Nat)
    (hL : isLoopParallel cfg env L = true)
    (hmem : SL ∈ L.subLoops)
    (hSL : isLoopParallel cfg env SL = true) :
    dlpPragma cfg cond <:+:
      textAt (denotateLoopParallel cfg env cond L p).1
        (toU32 (env.loopStartLine SL.id)) := by
  obtain ⟨lid, subs⟩ := L
  obtain ⟨bb, hbb, hp, hnd⟩ := (isLoopParallel_iff cfg env (.mk lid subs)).1 hL
  simp only [LoopTree.id] at hbb hp
  simp only [LoopTree.subLoops] at hmem
  have hd : ¬(cfg.divergent && env.blockIsDivergent bb) = true := by
    simp only [Bool.and_eq_true]
    exact hnd
  unfold denotateLoopParallel
  rw [hbb]
  simp only [hd, if_false, hp, Bool.not_true, Bool.false_eq_true]
  exact denotateList_annotates_member cfg env cond subs SL _ hmem hSL

/-- A two-loop nest: a parent loop (identifier 0, latch block 100,
start line 5) containing one sub-loop (identifier 1, latch block 101,
start line 7).  Block 100 carries the `"isParallel"` marker; block 101
does not. -/
def env3 : Env :=
  { loopFor := fun _ => none
    loopLatch := fun i => if i = 0 then some 100 else some 101
    loopStartLine := fun i => if i = 0 then 5 else 7
    loopHeader := fun _ => 0
    loopBlocks := fun _ => []
    blockIsParallel := fun b => b == 100
    blockIsDivergent := fun _ => false
    blockCalls := fun _ => []
    regionFor := fun _ => 0
    regionBlocks := fun _ => []
    regionEntering := fun _ => true
    regionTopLevel := fun _ => false
    hasFullSEI := fun _ => true
    stSafetly := fun _ => true
    rrSafetly := fun _ => true
    reduced := fun _ => none
    startRegionLoops := fun _ => 0
    endRegionLoops := fun _ => 0
    analyzeLoop := fun _ _ _ => ⟨false, [], [], false⟩
    analyzeRegion := fun _ _ _ => ⟨false, [], [], false⟩
    fdecl := fun _ => false
    fintr := fun _ => false
    favail := fun _ => false
    funcBlocks := fun _ => []
    allFuncs := [] }

/-- Configuration with parallel-marker emission on, accelerator target,
divergence-discard off. -/
def cfg3 : Config :=
  { emitParallel := true, emitOMP := '0', divergent := false, coalescing := false }

/-- C3 counterexample: the root loop of the nest is annotated at its
start line, but its sub-loop — whose own latch lacks the
`"isParallel"` marker — receives no directive at its start line, even
though the recursion visited it.  This refutes the claim that every
descendant loop of an annotated root receives a directive without
being independently re-validated. -/
theorem denotate_subloop_unmarked_skipped_cex :
    textAt (denotateLoopParallel cfg3 env3 [] (.mk 0 [.mk 1 []]) ([], 0)).1 7 = []
    ∧ textAt (denotateLoopParallel cfg3 env3 [] (.mk 0 [.mk 1 []]) ([], 0)).1 5
        = dlpPragma cfg3 [] := by
  constructor
  · decide
  · decide

/-- Witness for the amended C3 theorem at a concrete input: a nest whose
sub-loop latch (block 100) does carry the marker. -/
theorem denotate_subloop_marked_annotated_witness :
    dlpPragma cfg3 [] <:+:
      textAt (denotateLoopParallel cfg3 env3 [] (.mk 0 [.mk 0 []]) ([], 0)).1
        (toU32 (env3.loopStartLine (LoopTree.id (.mk 0 [])))) :=
  denotate_subloop_marked_annotated cfg3 env3 [] (.mk 0 [.mk 0 []]) (.mk 0 [])
    ([], 0) (by decide) (by simp [LoopTree.subLoops]) (by decide)

/-!
## C5: conservativeness of the coalescing traversal
-/

/-- `writeComputation` logs exactly the region it was handed (when the
descriptor analysis succeeds) and nothing else. -/
theorem writeComputation_annotatedRegions (cfg : Config) (env : Env)
    (line lineEnd : Int) (rid : Nat) (s : St) :
    ∃ t, (writeComputation cfg env line lineEnd rid s).annotatedRegions
        = s.annotatedRegions ++ t ∧ ∀ r ∈ t, r = rid := by
  unfold writeComputation
  by_cases h : (env.analyzeRegion rid line
      (aiName (s.newVars + 1))).ok
  · refine ⟨[rid], ?_, by simp⟩
    simp [h]
  · simp only [Bool.not_eq_true] at h
    exact ⟨[], by simp [h], by simp⟩

mutual
/-- Every region whose descriptor fragments are merged during the
memory-coalescing traversal has full side-effect information and is
reported safe by the reconstruction oracle. -/
theorem ric_annotated (cfg : Config) (env : Env) :
    ∀ (R : RegionTree) (s : St),
      ∃ t, (regionIdentifyCoalescing cfg env R s).annotatedRegions
          = s.annotatedRegions ++ t
        ∧ ∀ r ∈ t, env.hasFullSEI r = true ∧ env.rrSafetly r = true
  | .mk rid children, s => by
    unfold regionIdentifyCoalescing
    by_cases hg : !isSafeMemoryCoalescing cfg env rid || !env.stSafetly rid
    · simp only [hg, if_true]
      exact ricList_annotated cfg env children s
    · simp only [hg, Bool.false_eq_true, if_false]
      by_cases hinv : !env.hasFullSEI rid || !env.rrSafetly rid
      · simp only [hinv, if_true]
        cases hred : env.reduced rid with
        | none => exact ricList_annotated cfg env children s
        | some rr =>
          by_cases hok : env.rrSafetly rr && env.hasFullSEI rr
          · simp only [hok, if_true]
            obtain ⟨t, ht, hall⟩ := writeComputation_annotatedRegions cfg env
              (env.startRegionLoops rid) (env.endRegionLoops rid + 1) rr s
            have hok' : env.rrSafetly rr = true ∧ env.hasFullSEI rr = true := by
              simpa [Bool.and_eq_true] using hok
            refine ⟨t, ht, fun r hr => ?_⟩
            rw [hall r hr]
            exact ⟨hok'.2, hok'.1⟩
          · simp only [hok, Bool.false_eq_true, if_false]
            exact ricList_annotated cfg env children s
      · simp only [hinv, Bool.false_eq_true, if_false]
        obtain ⟨t, ht, hall⟩ := writeComputation_annotatedRegions cfg env
          (env.startRegionLoops rid) (env.endRegionLoops rid + 1) rid s
        have h12 : env.hasFullSEI rid = true ∧ env.rrSafetly rid = true := by
          simpa [Bool.not_eq_true', not_or, Bool.ne_false_iff] using hinv
        refine ⟨t, ht, fun r hr => ?_⟩
        rw [hall r hr]
        exact h12
/-- companion of `ric_annotated` over the child-region list. -/
theorem ricList_annotated (cfg : Config) (env : Env) :
    ∀ (rs : List RegionTree) (s : St),
      ∃ t, (regionIdentifyCoalescingList cfg env rs s).annotatedRegions
          = s.annotatedRegions ++ t
        ∧ ∀ r ∈ t, env.hasFullSEI r = true ∧ env.rrSafetly r = true
  | [], s => ⟨[], by simp [regionIdentifyCoalescingList], by simp⟩
  | r :: rs, s => by
    obtain ⟨t1, h1, hall1⟩ := ric_annotated cfg env r s
    obtain ⟨t2, h2, hall2⟩ := ricList_annotated cfg env rs
      (regionIdentifyCoalescing cfg env r s)
    refine ⟨t1 ++ t2, ?_, ?_⟩
    · simp only [regionIdentifyCoalescingList]
      rw [h2, h1, List.append_assoc]
    · intro x hx
      rcases List.mem_append.1 hx with h | h
      · exact hall1 x h
      · exact hall2 x h
end

/-- C5 (amended): in the memory-coalescing traversal, for every region
node for which the side-effect oracle reports incomplete information or
the reconstruction-safety oracle reports the node unsafe, no annotation
fragments are ever merged for that exact node (a descriptor is created
only for nodes passing both); the traversal instead annotates a valid
reduced sub-region or descends into the node's children.  Stated
contrapositively over the log of regions whose fragments were merged. -/
theorem coalescing_annotates_only_complete_safe_regions (cfg : Config)
    (env : Env) (R : RegionTree) (s : St) :
    ∃ t, (regionIdentifyCoalescing cfg env R s).annotatedRegions
        = s.annotatedRegions ++ t
      ∧ ∀ r ∈ t, env.hasFullSEI r = true ∧ env.rrSafetly r = true :=
  ric_annotated cfg env R s

/-- A region (identifier 0, the top-level region) lacking full
side-effect information, whose reduced sub-region (identifier 1) has
full information and passes the reconstruction-safety check but is
reported unsafe by the ScopeTree safety oracle; the reduced region's
descriptor analysis succeeds with one fragment for line 50. -/
def env5 : Env :=
  { loopFor := fun _ => none
    loopLatch := fun _ => none
    loopStartLine := fun _ => 0
    loopHeader := fun _ => 0
    loopBlocks := fun _ => []
    blockIsParallel := fun _ => false
    blockIsDivergent := fun _ => false
    blockCalls := fun _ => []
    regionFor := fun _ => 0
    regionBlocks := fun _ => []
    regionEntering := fun _ => true
    regionTopLevel := fun r => r == 0
    hasFullSEI := fun r => r == 1
    stSafetly := fun r => r == 0
    rrSafetly := fun _ => true
    reduced := fun r => if r = 0 then some 1 else none
    startRegionLoops := fun _ => 10
    endRegionLoops := fun _ => 20
    analyzeLoop := fun _ _ _ => ⟨false, [], [], false⟩
    analyzeRegion := fun _ _ _ => ⟨true, [], [(50, "X".data)], false⟩
    fdecl := fun _ => false
    fintr := fun _ => false
    favail := fun _ => false
    funcBlocks := fun _ => []
    allFuncs := [] }

/-- Coalescing configuration, parallel-marker emission off. -/
def cfg5 : Config :=
  { emitParallel := false, emitOMP := '0', divergent := false, coalescing := true }

/-- C5 counterexample: the reduced sub-region (region 1) is reported
unsafe by the ScopeTree safety oracle (`isSafetlyRegionLoops`), yet the
coalescing traversal merges annotation fragments for it — that oracle
is never consulted for a reduced region.  This refutes the claim that
no annotation is produced for a region node that a safety oracle
reports unsafe. -/
theorem reduced_region_skips_scopetree_safety_cex :
    (regionIdentifyCoalescing cfg5 env5 (.mk 0 []) initSt).annotatedRegions = [1]
    ∧ env5.stSafetly 1 = false
    ∧ textAt (regionIdentifyCoalescing cfg5 env5 (.mk 0 []) initSt).comments 50
        = "X".data := by
  refine ⟨by decide, by decide, by decide⟩

/-!
## C2: line span used for a reduced region
-/

/-- C2 (amended): when a region `R` fails the side-effect/reconstruction
validity check but its reduced sub-region is safety-valid with complete
side-effect information, the annotation is emitted for the reduced
sub-region — but at the start line and end line computed for the
original region `R`, which are handed unchanged to `writeComputation`. -/
theorem coalescing_reduced_region_line_span (cfg : Config) (env : Env)
    (rid : Nat) (children : List RegionTree) (s : St) (rr : Nat)
    (hsafe : isSafeMemoryCoalescing cfg env rid = true)
    (hst : env.stSafetly rid = true)
    (hinv : (!env.hasFullSEI rid || !env.rrSafetly rid) = true)
    (hred : env.reduced rid = some rr)
    (hok : (env.rrSafetly rr && env.hasFullSEI rr) = true) :
    regionIdentifyCoalescing cfg env (.mk rid children) s
      = writeComputation cfg env (env.startRegionLoops rid)
          (env.endRegionLoops rid + 1) rr s := by
  unfold regionIdentifyCoalescing
  simp [hsafe, hst, hinv, hred, hok]

/-- Like `env5`, but the reduced sub-region (region 1) is reported safe
by every oracle, and the two regions have different line spans: region
0 spans lines 10..20, region 1 spans lines 12..15.  The descriptor
analysis records which start line it was given: a fragment at line 100
when invoked with line 10, at line 200 otherwise. -/
def env2 : Env :=
  { loopFor := fun _ => none
    loopLatch := fun _ => none
    loopStartLine := fun _ => 0
    loopHeader := fun _ => 0
    loopBlocks := fun _ => []
    blockIsParallel := fun _ => false
    blockIsDivergent := fun _ => false
    blockCalls := fun _ => []
    regionFor := fun _ => 0
    regionBlocks := fun _ => []
    regionEntering := fun _ => true
    regionTopLevel := fun r => r == 0
    hasFullSEI := fun r => r == 1
    stSafetly := fun _ => true
    rrSafetly := fun _ => true
    reduced := fun r => if r = 0 then some 1 else none
    startRegionLoops := fun r => if r = 0 then 10 else 12
    endRegionLoops := fun r => if r = 0 then 20 else 15
    analyzeLoop := fun _ _ _ => ⟨false, [], [], false⟩
    analyzeRegion := fun _ line _ =>
      if line == 10 then ⟨true, [], [(100, "X".data)], false⟩
      else ⟨true, [], [(200, "Y".data)], false⟩
    fdecl := fun _ => false
    fintr := fun _ => false
    favail := fun _ => false
    funcBlocks := fun _ => []
    allFuncs := [] }

/-- Coalescing configuration for the C2 scenario. -/
def cfg2 : Config :=
  { emitParallel := false, emitOMP := '0', divergent := false, coalescing := true }

/-- C2 counterexample: region 0 (span 10..20) is invalid and is reduced
to region 1 (span 12..15).  The scope-closing fragment lands on line 21
(the original region's end line + 1), not on line 16 (the reduced
region's end line + 1), and the descriptor analysis receives start line
10 (the original region's), not 12 — witnessed by the fragment at line
100 rather than 200.  This refutes the claim that the annotation is
placed at the reduced region's computed line span. -/
theorem coalescing_reduced_uses_original_lines_cex :
    (regionIdentifyCoalescing cfg2 env2 (.mk 0 []) initSt).annotatedRegions = [1]
    ∧ textAt (regionIdentifyCoalescing cfg2 env2 (.mk 0 []) initSt).comments 21
        = "\x7d\n".data
    ∧ textAt (regionIdentifyCoalescing cfg2 env2 (.mk 0 []) initSt).comments 16 = []
    ∧ textAt (regionIdentifyCoalescing cfg2 env2 (.mk 0 []) initSt).comments 100
        = "X".data
    ∧ textAt (regionIdentifyCoalescing cfg2 env2 (.mk 0 []) initSt).comments 200
        = [] := by
  refine ⟨by decide, by decide, by decide, by decide, by decide⟩

/-- Witness for the amended C2 theorem at a concrete input. -/
theorem coalescing_reduced_region_line_span_witness :
    regionIdentifyCoalescing cfg2 env2 (.mk 0 []) initSt
      = writeComputation cfg2 env2 (env2.startRegionLoops 0)
          (env2.endRegionLoops 0 + 1) 1 initSt :=
  coalescing_reduced_region_line_span cfg2 env2 0 [] initSt 1
    (by decide) (by decide) (by decide) (by decide) (by decide)

/-!
## C1 and C10: the sequence counter and the `numFLC` statistic

`FreshLog s s'` relates a state to a later state of the same
`runOnFunction` invocation: the descriptor counter only grows, `numFLC`
is untouched, and the sequence numbers logged in between are strictly
increasing and confined to the interval the counter traversed.
-/

def FreshLog (s s' : St) : Prop :=
  s.newVars ≤ s'.newVars ∧ s'.numFLC = s.numFLC ∧
  ∃ t, s'.seqUsed = s.seqUsed ++ t ∧ t.Pairwise (· < ·) ∧
    ∀ x ∈ t, s.newVars < x ∧ x ≤ s'.newVars

theorem FreshLog_of_eq {s s' : St} (hnv : s'.newVars = s.newVars)
    (hflc : s'.numFLC = s.numFLC) (hseq : s'.seqUsed = s.seqUsed) :
    FreshLog s s' :=
  ⟨le_of_eq hnv.symm, hflc, [], by simp [hseq], by simp, by simp⟩

theorem FreshLog_refl (s : St) : FreshLog s s :=
  FreshLog_of_eq rfl rfl rfl

theorem FreshLog_bump {s s' : St} (hnv : s'.newVars = s.newVars + 1)
    (hflc : s'.numFLC = s.numFLC)
    (hseq : s'.seqUsed = s.seqUsed ++ [s.newVars + 1]) :
    FreshLog s s' :=
  ⟨by omega, hflc, [s.newVars + 1], hseq, by simp,
    fun x hx => by simp at hx; omega⟩

theorem FreshLog_trans {s1 s2 s3 : St} (h12 : FreshLog s1 s2)
    (h23 : FreshLog s2 s3) : FreshLog s1 s3 := by
  obtain ⟨hn12, hf12, t1, hs1, hp1, hb1⟩ := h12
  obtain ⟨hn23, hf23, t2, hs2, hp2, hb2⟩ := h23
  refine ⟨le_trans hn12 hn23, hf23.trans hf12, t1 ++ t2, ?_, ?_, ?_⟩
  · rw [hs2, hs1, List.append_assoc]
  · rw [List.pairwise_append]
    refine ⟨hp1, hp2, fun x hx y hy => ?_⟩
    have := (hb1 x hx).2
    have := (hb2 y hy).1
    omega
  · intro x hx
    rcases List.mem_append.1 hx with h | h
    · have := hb1 x h
      omega
    · have := hb2 x h
      omega

/-- `writeComputation` bumps the counter once and logs exactly that
value; it never touches `numFLC`. -/
theorem writeComputation_fresh (cfg : Config) (env : Env)
    (line lineEnd : Int) (rid : Nat) (s : St) :
    FreshLog s (writeComputation cfg env line lineEnd rid s) := by
  unfold writeComputation
  by_cases h : (env.analyzeRegion rid line (aiName (s.newVars + 1))).ok
  · exact FreshLog_bump (by simp [h]) (by simp [h]) (by simp [h])
  · simp only [Bool.not_eq_true] at h
    exact FreshLog_bump (by simp [h]) (by simp [h]) (by simp [h])

mutual
/-- `regionIdentify` satisfies the `FreshLog` invariant. -/
theorem ri_fresh (cfg : Config) (env : Env) :
    ∀ (R : RegionTree) (s : St), FreshLog s (regionIdentify cfg env R s)
  | .mk rid children, s => by
    unfold regionIdentify
    cases hb : (env.regionBlocks rid).head? with
    | none => simpa [hb] using riList_fresh cfg env children s
    | some b =>
      cases hl : env.loopFor b with
      | none => simpa [hb, hl] using riList_fresh cfg env children s
      | some l =>
        simp only [hb, hl]
        by_cases hg1 : !isLoopParallel cfg env l && cfg.emitParallel
        · simpa [hg1] using riList_fresh cfg env children s
        · by_cases hg2 : !isLoopAnalyzable env l || !env.stSafetly rid
          · simpa [hg1, hg2] using riList_fresh cfg env children s
          · by_cases hline : env.loopStartLine l.id == errorValue
            · refine FreshLog_of_eq ?_ ?_ ?_ <;> simp [hg1, hg2, hline]
            · by_cases hok : (env.analyzeLoop l.id (env.loopStartLine l.id)
                  (aiName (s.newVars + 1))).ok
              · by_cases hep : cfg.emitParallel
                · have hP : isLoopParallel cfg env l = true := by
                    by_contra hc
                    simp only [Bool.not_eq_true] at hc
                    exact hg1 (by simp [hc, hep])
                  exact FreshLog_bump (by simp [hg1, hg2, hline, hok, hep, hP])
                    (by simp [hg1, hg2, hline, hok, hep, hP])
                    (by simp [hg1, hg2, hline, hok, hep, hP])
                · exact FreshLog_bump (by simp [hg1, hg2, hline, hok, hep])
                    (by simp [hg1, hg2, hline, hok, hep])
                    (by simp [hg1, hg2, hline, hok, hep])
              · simp only [Bool.not_eq_true] at hok
                exact FreshLog_bump (by simp [hg1, hg2, hline, hok])
                  (by simp [hg1, hg2, hline, hok])
                  (by simp [hg1, hg2, hline, hok])
/-- companion of `ri_fresh` over the child-region list. -/
theorem riList_fresh (cfg : Config) (env : Env) :
    ∀ (rs : List RegionTree) (s : St), FreshLog s (regionIdentifyList cfg env rs s)
  | [], s => by
    simpa [regionIdentifyList] using FreshLog_refl s
  | r :: rs, s => by
    have h1 := ri_fresh cfg env r s
    have h2 := riList_fresh cfg env rs (regionIdentify cfg env r s)
    simpa [regionIdentifyList] using FreshLog_trans h1 h2
end

mutual
/-- `regionIdentifyCoalescing` satisfies the `FreshLog` invariant. -/
theorem ric_fresh (cfg : Config) (env : Env) :
    ∀ (R : RegionTree) (s : St), FreshLog s (regionIdentifyCoalescing cfg env R s)
  | .mk rid children, s => by
    unfold regionIdentifyCoalescing
    by_cases hg : !isSafeMemoryCoalescing cfg env rid || !env.stSafetly rid
    · simpa [hg] using ricList_fresh cfg env children s
    · by_cases hinv : !env.hasFullSEI rid || !env.rrSafetly rid
      · cases hred : env.reduced rid with
        | none => simpa [hg, hinv, hred] using ricList_fresh cfg env children s
        | some rr =>
          by_cases hok : env.rrSafetly rr && env.hasFullSEI rr
          · simpa [hg, hinv, hred, hok] using writeComputation_fresh cfg env
              (env.startRegionLoops rid) (env.endRegionLoops rid + 1) rr s
          · simpa [hg, hinv, hred, hok] using ricList_fresh cfg env children s
      · simpa [hg, hinv] using writeComputation_fresh cfg env
          (env.startRegionLoops rid) (env.endRegionLoops rid + 1) rid s
/-- companion of `ric_fresh` over the child-region list. -/
theorem ricList_fresh (cfg : Config) (env : Env) :
    ∀ (rs : List RegionTree) (s : St),
      FreshLog s (regionIdentifyCoalescingList cfg env rs s)
  | [], s => by
    simpa [regionIdentifyCoalescingList] using FreshLog_refl s
  | r :: rs, s => by
    have h1 := ric_fresh cfg env r s
    have h2 := ricList_fresh cfg env rs (regionIdentifyCoalescing cfg env r s)
    simpa [regionIdentifyCoalescingList] using FreshLog_trans h1 h2
end

/-- `functionIdentify` satisfies the `FreshLog` invariant. -/
theorem functionIdentify_fresh (cfg : Config) (env : Env) (F : Func) (s : St) :
    FreshLog s (functionIdentify cfg env F s) := by
  unfold functionIdentify
  have hmid : FreshLog s { s with numL := countLoops env F.fblocks s.numL [] } :=
    FreshLog_of_eq rfl rfl rfl
  by_cases hc : cfg.coalescing
  · simpa [hc] using FreshLog_trans hmid (ric_fresh cfg env F.ftop _)
  · simpa [hc] using FreshLog_trans hmid (ri_fresh cfg env F.ftop _)

/-- C1 (amended): within a single invocation of `runOnFunction`, every
computation descriptor receives a fresh sequence number: the newly
logged sequence numbers are strictly increasing, hence pairwise
distinct.  (Across different invocations the counter is reset to zero
by `runOnFunction`, so distinctness does not extend across functions —
see the counterexample.) -/
theorem runOnFunction_seq_numbers_distinct (cfg : Config) (env : Env)
    (F : Func) (s : St) :
    ∃ t, (runOnFunction cfg env F s).seqUsed = s.seqUsed ++ t
      ∧ t.Pairwise (· ≠ ·) := by
  obtain ⟨_, _, t, hseq, hpair, _⟩ := functionIdentify_fresh cfg env F
    { s with newVars := 0, comments := [], isknowedLoop := [] }
  exact ⟨t, by simpa [runOnFunction] using hseq,
    hpair.imp (fun h => Nat.ne_of_lt h)⟩

/-- One function with one analyzable, annotatable loop (identifier 0,
start line 5) whose region (identifier 0) passes all checks; the
descriptor analysis always succeeds. -/
def env1 : Env :=
  { loopFor := fun _ => some (.mk 0 [])
    loopLatch := fun _ => none
    loopStartLine := fun _ => 5
    loopHeader := fun _ => 0
    loopBlocks := fun _ => []
    blockIsParallel := fun _ => false
    blockIsDivergent := fun _ => false
    blockCalls := fun _ => []
    regionFor := fun _ => 0
    regionBlocks := fun _ => [0]
    regionEntering := fun _ => true
    regionTopLevel := fun _ => true
    hasFullSEI := fun _ => true
    stSafetly := fun _ => true
    rrSafetly := fun _ => true
    reduced := fun _ => none
    startRegionLoops := fun _ => 0
    endRegionLoops := fun _ => 0
    analyzeLoop := fun _ _ _ => ⟨true, [], [], false⟩
    analyzeRegion := fun _ _ _ => ⟨false, [], [], false⟩
    fdecl := fun _ => false
    fintr := fun _ => false
    favail := fun _ => false
    funcBlocks := fun _ => []
    allFuncs := [] }

/-- Policy-A configuration without parallel emission. -/
def cfg1 : Config :=
  { emitParallel := false, emitOMP := '1', divergent := false, coalescing := false }

/-- The function analyzed in the C1 counterexample. -/
def func1 : Func := { fblocks := [0], ftop := .mk 0 [] }

/-- C1 counterexample: a module with two functions, each of which
performs one successful annotation attempt.  Because `runOnFunction`
resets the sequence counter (`NewVars = 0`) at the start of every
function, both computation descriptors receive sequence number 1 — the
logged sequence numbers of the whole run are `[1, 1]`, not pairwise
distinct.  This refutes the claim that the counter is process-wide and
never reset, giving distinct numbers across different functions. -/
theorem seq_reset_across_functions_cex :
    (processModule cfg1 env1 [func1, func1] initSt).seqUsed = [1, 1]
    ∧ ¬ (processModule cfg1 env1 [func1, func1] initSt).seqUsed.Pairwise (· ≠ ·) := by
  refine ⟨by decide, ?_⟩
  intro h
  have : (1 : Nat) ≠ 1 := by
    have hs : (processModule cfg1 env1 [func1, func1] initSt).seqUsed = [1, 1] := by decide
    rw [hs] at h
    exact List.rel_of_pairwise_cons h (by simp)
  exact this rfl

/-- C10: the `numFLC` statistic ("safe call instructions inside loops")
is zero at the end of every run, for every module, environment and
configuration: its only increment site, `analyzeCalls`, is invoked by
no traversal function. -/
theorem numFLC_always_zero (cfg : Config) (env : Env) (Fs : List Func) :
    (processModule cfg env Fs initSt).numFLC = 0 := by
  suffices h : ∀ (Fs : List Func) (s : St),
      (processModule cfg env Fs s).numFLC = s.numFLC by
    simp [h, initSt]
  intro Fs
  induction Fs with
  | nil => intro s; simp [processModule]
  | cons F rest ih =>
    intro s
    have h1 : (runOnFunction cfg env F s).numFLC = s.numFLC := by
      obtain ⟨_, hflc, _⟩ := functionIdentify_fresh cfg env F
        { s with newVars := 0, comments := [], isknowedLoop := [] }
      simpa [runOnFunction] using hflc
    have h2 := ih (runOnFunction cfg env F s)
    simp only [processModule] at h2 ⊢
    simp only [List.foldl_cons]
    rw [h2, h1]

/-!
## C8: termination of the routine closure builder

The C++ recursion of `findACCroutines` terminates because a function
already present in the registry is never recursed into, and every
eligible function registers itself on entry.  In the embedding this
becomes: the fuelled recursion's result is independent of the fuel once
the fuel exceeds the number of unregistered module functions.
-/

/-- The number of module functions not yet registered. -/
def unreg (env : Env) (rs : List FuncId) : Nat :=
  env.allFuncs.countP (fun g => !rs.contains g)

theorem unreg_le_length (env : Env) (rs : List FuncId) :
    unreg env rs ≤ env.allFuncs.length :=
  List.countP_le_length _

theorem unreg_mono (env : Env) {rs rs' : List FuncId}
    (h : ∀ x, x ∈ rs → x ∈ rs') : unreg env rs' ≤ unreg env rs := by
  apply List.countP_mono_left
  intro a _ ha
  have ha' : a ∉ rs' := by simpa using ha
  have hgoal : a ∉ rs := fun hc => ha' (h a hc)
  simpa using hgoal

theorem countP_append_singleton_lt (rs : List FuncId) (c : FuncId) :
    ∀ (l : List FuncId), c ∈ l → rs.contains c = false →
      l.countP (fun g => !(rs ++ [c]).contains g)
        < l.countP (fun g => !rs.contains g) := by
  intro l
  induction l with
  | nil => intro hc _; cases hc
  | cons a l ih =>
    intro hc hnc
    have hmono : l.countP (fun g => !(rs ++ [c]).contains g)
        ≤ l.countP (fun g => !rs.contains g) := by
      apply List.countP_mono_left
      intro x _ hx
      have hx' : ¬(x ∈ rs ∨ x = c) := by simpa using hx
      have hgoal : x ∉ rs := fun hc' => hx' (Or.inl hc')
      simpa using hgoal
    by_cases heq : a = c
    · subst heq
      have h1 : (!rs.contains a) = true := by simpa using hnc
      have h2 : (!(rs ++ [a]).contains a) = false := by simp
      simp only [List.countP_cons, h1, h2, if_true, Bool.false_eq_true, if_false]
      omega
    · have hmem : c ∈ l := by
        rcases List.mem_cons.1 hc with h | h
        · exact absurd h.symm heq
        · exact h
      have hlt := ih hmem hnc
      have hhead : ((!(rs ++ [c]).contains a : Bool) = true →
          (!rs.contains a) = true) := by
        intro hx
        have hx' : ¬(a ∈ rs ∨ a = c) := by simpa using hx
        have hgoal : a ∉ rs := fun hc' => hx' (Or.inl hc')
        simpa using hgoal
      simp only [List.countP_cons]
      by_cases ha : (!(rs ++ [c]).contains a) = true
      · simp only [ha, hhead ha, if_true]
        omega
      · simp only [Bool.not_eq_true] at ha
        simp only [ha, Bool.false_eq_true, if_false]
        split <;> omega

theorem unreg_append_lt (env : Env) {rs : List FuncId} {c : FuncId}
    (hc : c ∈ env.allFuncs) (hnc : rs.contains c = false) :
    unreg env (rs ++ [c]) < unreg env rs :=
  countP_append_singleton_lt rs c env.allFuncs hc hnc

mutual
/-- Any registry entry survives `findACCroutinesF`. -/
theorem mem_findACCroutinesF (cfg : Config) (env : Env) :
    ∀ (fuel : Nat) (F : FuncId) (rs : List FuncId) (x : FuncId),
      x ∈ rs → x ∈ findACCroutinesF cfg env fuel F rs
  | 0, _, rs, x, hx => by simpa [findACCroutinesF] using hx
  | fuel + 1, F, rs, x, hx => by
    unfold findACCroutinesF
    by_cases hin : accIneligible cfg env F
    · simpa [hin] using hx
    · simp only [hin, Bool.false_eq_true, if_false]
      apply mem_findACCcallsF
      split
      · exact hx
      · exact List.mem_append.2 (Or.inl hx)
  termination_by fuel _ _ _ _ => (fuel, 0)
/-- Any registry entry survives `findACCcallsF`. -/
theorem mem_findACCcallsF (cfg : Config) (env : Env) :
    ∀ (fuel : Nat) (cs : List FuncId) (rs : List FuncId) (x : FuncId),
      x ∈ rs → x ∈ findACCcallsF cfg env fuel cs rs
  | fuel, [], rs, x, hx => by simpa [findACCcallsF] using hx
  | fuel, c :: cs, rs, x, hx => by
    unfold findACCcallsF
    apply mem_findACCcallsF
    split
    · exact hx
    · exact mem_findACCroutinesF cfg env fuel c rs x hx
  termination_by fuel cs _ _ _ => (fuel, cs.length + 1)
end

/-- Fuel-independence of the call fold, by strong induction on the
number of unregistered functions. -/
theorem findACCcallsF_stable (cfg : Config) (env : Env)
    (hWF : ∀ g, accIneligible cfg env g = false → g ∈ env.allFuncs) :
    ∀ (n : Nat) (cs : List FuncId) (rs : List FuncId) (f1 f2 : Nat),
      unreg env rs ≤ n → n < f1 → n < f2 →
      findACCcallsF cfg env f1 cs rs = findACCcallsF cfg env f2 cs rs := by
  intro n
  induction n using Nat.strong_induction_on with
  | _ n IH =>
    intro cs
    induction cs with
    | nil => intro rs f1 f2 _ _ _; simp [findACCcallsF]
    | cons c cs ihcs =>
      intro rs f1 f2 hm h1 h2
      unfold findACCcallsF
      by_cases hc : rs.contains c
      · simp only [hc, if_true]
        exact ihcs rs f1 f2 hm h1 h2
      · simp only [hc, Bool.false_eq_true, if_false]
        have hr : findACCroutinesF cfg env f1 c rs = findACCroutinesF cfg env f2 c rs := by
          obtain ⟨a, rfl⟩ : ∃ a, f1 = a + 1 := ⟨f1 - 1, by omega⟩
          obtain ⟨b, rfl⟩ : ∃ b, f2 = b + 1 := ⟨f2 - 1, by omega⟩
          unfold findACCroutinesF
          by_cases hin : accIneligible cfg env c
          · simp [hin]
          · simp only [hin, Bool.false_eq_true, if_false, hc, if_false]
            simp only [Bool.not_eq_true] at hin
            have hcin : c ∈ env.allFuncs := hWF c hin
            have hlt : unreg env (rs ++ [c]) < unreg env rs :=
              unreg_append_lt env hcin (by simpa using hc)
            have hn1 : unreg env (rs ++ [c]) ≤ n - 1 := by omega
            have hnlt : n - 1 < n := by omega
            exact IH (n - 1) hnlt (funcCalls env c) (rs ++ [c]) a b hn1
              (by omega) (by omega)
        rw [hr]
        apply ihcs
        · calc unreg env (findACCroutinesF cfg env f2 c rs)
              ≤ unreg env rs := unreg_mono env
                (fun x hx => mem_findACCroutinesF cfg env f2 c rs x hx)
            _ ≤ n := hm
        · exact h1
        · exact h2

/-- Fuel-independence of `findACCroutinesF` beyond the module bound. -/
theorem findACCroutinesF_stable (cfg : Config) (env : Env)
    (hWF : ∀ g, accIneligible cfg env g = false → g ∈ env.allFuncs)
    (F : FuncId) (rs : List FuncId) (f1 f2 : Nat)
    (h1 : env.allFuncs.length + 2 ≤ f1) (h2 : env.allFuncs.length + 2 ≤ f2) :
    findACCroutinesF cfg env f1 F rs = findACCroutinesF cfg env f2 F rs := by
  obtain ⟨a, rfl⟩ : ∃ a, f1 = a + 1 := ⟨f1 - 1, by omega⟩
  obtain ⟨b, rfl⟩ : ∃ b, f2 = b + 1 := ⟨f2 - 1, by omega⟩
  unfold findACCroutinesF
  by_cases hin : accIneligible cfg env F
  · simp [hin]
  · simp only [hin, Bool.false_eq_true, if_false]
    have hbound : unreg env (if rs.contains F then rs else rs ++ [F])
        ≤ env.allFuncs.length := by
      split <;> exact unreg_le_length env _
    exact findACCcallsF_stable cfg env hWF env.allFuncs.length
      (funcCalls env F) _ a b hbound (by omega) (by omega)

/-- A module of two mutually recursive functions `F = 0` and `G = 1`,
each with a body consisting of one block holding one call to the other;
both are eligible (no declaration, intrinsic or available-externally
linkage), every other identifier is a declaration, and the accelerator
target (`Emit-OMP = ACC`) is active. -/
def env8 : Env :=
  { loopFor := fun _ => none
    loopLatch := fun _ => none
    loopStartLine := fun _ => 0
    loopHeader := fun _ => 0
    loopBlocks := fun _ => []
    blockIsParallel := fun _ => false
    blockIsDivergent := fun _ => false
    blockCalls := fun b => if b = 0 then [⟨1, []⟩] else [⟨0, []⟩]
    regionFor := fun _ => 0
    regionBlocks := fun _ => []
    regionEntering := fun _ => true
    regionTopLevel := fun _ => true
    hasFullSEI := fun _ => true
    stSafetly := fun _ => true
    rrSafetly := fun _ => true
    reduced := fun _ => none
    startRegionLoops := fun _ => 0
    endRegionLoops := fun _ => 0
    analyzeLoop := fun _ _ _ => ⟨false, [], [], false⟩
    analyzeRegion := fun _ _ _ => ⟨false, [], [], false⟩
    fdecl := fun g => decide (2 ≤ g)
    fintr := fun _ => false
    favail := fun _ => false
    funcBlocks := fun F => [F]
    allFuncs := [0, 1] }

/-- Accelerator-target configuration for the C8 scenario. -/
def cfg8 : Config :=
  { emitParallel := false, emitOMP := '0', divergent := false, coalescing := false }

/-- C8: the routine closure builder terminates on every call graph —
the fuelled recursion's result is the same for every fuel beyond the
module bound, so `findACCroutines` is its (well-defined) limit — and,
run on the cyclic call graph `F → G → F` with both functions eligible
and the accelerator target active, it registers exactly `{F, G}`. -/
theorem findACCroutines_terminates_and_registers_cycle :
    (∀ (cfg : Config) (env : Env),
      (∀ g, accIneligible cfg env g = false → g ∈ env.allFuncs) →
      ∀ (F : FuncId) (rs : List FuncId) (f : Nat),
        env.allFuncs.length + 2 ≤ f →
        findACCroutinesF cfg env f F rs = findACCroutines cfg env F rs)
    ∧ findACCroutines cfg8 env8 0 [] = [0, 1] := by
  constructor
  · intro cfg env hWF F rs f hf
    exact findACCroutinesF_stable cfg env hWF F rs f
      (env.allFuncs.length + 2) hf (by omega)
  · show findACCroutines cfg8 env8 0 [] = [0, 1]
    simp [findACCroutines, findACCroutinesF, findACCcallsF, accIneligible,
      funcCalls, env8, cfg8, accChar]

/-- Witness for C8 at a concrete input: with the cyclic two-function
module, any surplus fuel (here 10) computes the same registry as the
bounded recursion. -/
theorem findACCroutines_terminates_witness :
    findACCroutinesF cfg8 env8 10 0 [] = findACCroutines cfg8 env8 0 [] :=
  findACCroutines_terminates_and_registers_cycle.1 cfg8 env8
    (by
      intro g hg
      by_contra hmem
      have hge : 2 ≤ g := by
        rcases Nat.lt_or_ge g 2 with hl | hge
        · exfalso
          apply hmem
          interval_cases g <;> simp [env8]
        · exact hge
      simp [accIneligible, env8, cfg8, hge] at hg)
    0 [] 10 (by decide)

end WE
